import Mathlib

/-!
Shallow embedding of `src/agoro_field_boundary_detector/data/transformations.py`
and proofs about its claimed properties.

Arrays are embedded as lists of rows: a 2-D numpy array of scalars becomes
`List (List Nat)`, and the H×W×3 RGB field becomes a 2-D array of `Pix`
(a triple of channel values).  Python `assert` failures are embedded as
`Except.error` with a message naming the failing assertion; machine integers
that the code re-encodes to uint8 are reduced mod 256 explicitly.
-/

/-- One RGB pixel: the three uint8 channel values of the H×W×3 field array. -/
abbrev Pix := Nat × Nat × Nat

/-- A 2-D array, stored as the list of its rows. -/
abbrev Arr (α : Type) := List (List α)

/-- The field image (H×W×3 uint8 array); named FieldImg since Field is taken by Mathlib. -/
abbrev FieldImg := Arr Pix

/-- The label mask (H×W integer array, 0 = background). -/
abbrev Mask := Arr Nat

/-- The array `m` has `h` rows, each of length `w` (numpy shape (h, w)). -/
abbrev rect (m : Arr α) (h w : Nat) : Prop :=
  m.length = h ∧ ∀ r ∈ m, r.length = w

/-- Normalisation of one python slice bound `i` against length `n`:
negative bounds count from the end, and bounds are clamped to `[0, n]`. -/
def pyIdx (n : Nat) (i : Int) : Nat :=
  if i < 0 then ((n : Int) + i).toNat else min i.toNat n

/-- Python / numpy basic slicing `l[a:b]` (step 1). -/
def pyslice (a b : Int) (l : List α) : List α :=
  (l.drop (pyIdx l.length a)).take (pyIdx l.length b - pyIdx l.length a)

/-- Numpy 2-D basic slicing `m[a:b, c:d]`. -/
def slice2 (a b c d : Int) (m : Arr α) : Arr α :=
  (pyslice a b m).map (fun r => pyslice c d r)

/-- Numpy `repeat(2, axis=0)`: every row is duplicated. -/
def repeatRows (m : Arr α) : Arr α := m.flatMap (fun r => [r, r])

/-- Numpy `repeat(2, axis=1)`: every entry is duplicated inside its row. -/
def repeatCols (m : Arr α) : Arr α := m.map (fun r => r.flatMap (fun x => [x, x]))

/-- The `.repeat(2, axis=0).repeat(2, axis=1)` composite used by the
translation operators to re-expand a half-size crop to full resolution. -/
def repeat2 (m : Arr α) : Arr α := repeatCols (repeatRows m)

/-- Transpose of a 2-D array (column `j` of `m` becomes row `j`). -/
def transposeA (m : Arr α) : Arr α :=
  (List.range (m.headD []).length).map (fun j => m.filterMap (fun r => r.get? j))

/-- Numpy `rot90`: one counter-clockwise quarter turn
(transpose, then reverse the row order). -/
def rot90 (m : Arr α) : Arr α := (transposeA m).reverse

/-- Numpy `np.flip(m, axis=0)`: reverse the row order. -/
def flipud (m : Arr α) : Arr α := m.reverse

/-- Numpy `np.fliplr` / `np.flip(m, axis=1)`: reverse every row. -/
def fliplr (m : Arr α) : Arr α := m.map List.reverse

/-- Channel `i` of one pixel (`p[i]` for i = 0, 1, 2). -/
def projPix : Nat → Pix → Nat
  | 0, p => p.1
  | 1, p => p.2.1
  | _, p => p.2.2

/-- Write value `v` into channel `i` of one pixel. -/
def updPix : Nat → Pix → Nat → Pix
  | 0, p, v => (v, p.2.1, p.2.2)
  | 1, p, v => (p.1, v, p.2.2)
  | _, p, v => (p.1, p.2.1, v)

/-- Numpy channel read `field[:, :, i]`. -/
def getChannel (f : FieldImg) (i : Nat) : Arr Nat := f.map (fun r => r.map (projPix i))

/-- Numpy in-place channel write `field[:, :, i] = img`: entry (r, c) of
channel `i` becomes `img[r][c]`.  The structure of `f` is kept, matching the
in-place nature of the assignment (in the program the shapes always agree). -/
def setChannel (f : FieldImg) (i : Nat) (img : Arr Nat) : FieldImg :=
  f.enum.map (fun rc =>
    rc.2.enum.map (fun cc =>
      match (img.get? rc.1).bind (fun row => row.get? cc.1) with
      | some v => updPix i cc.2 v
      | none => cc.2))

/-- Reflect-mode boundary index used by the modelled smoothing filter. -/
def reflectIdx (n : Nat) (i : Int) : Nat :=
  if n = 0 then 0
  else
    let j : Int := if i < 0 then -1 - i else i
    let j : Int := if (n : Int) ≤ j then 2 * (n : Int) - 1 - j else j
    j.toNat % n

/-- One-dimensional integer box average of radius `s` with reflected borders. -/
def boxRow (s : Nat) (r : List Nat) : List Nat :=
  (List.range r.length).map (fun i =>
    (((List.range (2 * s + 1)).map
        (fun d => r.getD (reflectIdx r.length ((i : Int) + (d : Int) - (s : Int))) 0)).sum)
      / (2 * s + 1))

/-- Modelled from the spec: `scipy.ndimage.gaussian_filter` is an external
library routine computing a floating-point isotropic Gaussian smoothing of one
channel with standard deviation `sigma`; it is modelled here as an integer
separable box smoothing of radius `sigma` with reflected borders (rows, then
columns).  No settled claim depends on the kernel values. -/
def gaussian_filter (img : Arr Nat) (sigma : Int) : Arr Nat :=
  let s := sigma.toNat
  transposeA ((transposeA (img.map (boxRow s))).map (boxRow s))

/-- Modelled from the spec: the 256-entry lookup table of `t_gamma`,
`((i / 255) ** (1 / (gamma / 10))) * 255` cast to uint8, is floating-point and
is not modelled bitwise; it is modelled as a table keeping the 8-bit range.
No settled claim depends on the table values. -/
def gammaTable (_gamma : Int) (i : Nat) : Nat := i % 256

/-- `cv2.LUT`: apply a 256-entry table to every channel of every pixel. -/
def cvLUT (f : FieldImg) (table : Nat → Nat) : FieldImg :=
  f.map (fun r => r.map (fun p =>
    (table (p.1 % 256), table (p.2.1 % 256), table (p.2.2 % 256))))

/-- Sorted list of the distinct non-zero values of a mask, embedding
`sorted(set(np.unique(mask_slice)) - set([0]))` (line 57 / 83). -/
def sortedVals (m : Arr Nat) : List Nat :=
  List.insertionSort (· ≤ ·) ((m.flatten.filter (fun v => v ≠ 0)).dedup)

/-- Numpy boolean-mask assignment `m[m == v] = w`. -/
def substArr (m : Arr Nat) (v w : Nat) : Arr Nat :=
  m.map (List.map (fun x => if x = v then w else x))

/-- The renumbering loop `for idx, v in enumerate(values): m[m == v] = idx + 1`
(lines 58-59 / 84-85). -/
def renormList (vals : List Nat) (m : Arr Nat) : Arr Nat :=
  vals.enum.foldl (fun acc p => substArr acc p.2 (p.1 + 1)) m

/-- The complete mask-label renormalisation applied to a replicated slice. -/
def renorm (m : Arr Nat) : Arr Nat := renormList (sortedVals m) m

/-- The number of distinct non-zero label values of a mask region. -/
def numLabels (m : Arr Nat) : Nat :=
  ((m.flatten.filter (fun v => v ≠ 0)).dedup).length

/-- Reduction of one pixel to uint8, `np.uint8` on an RGB entry. -/
def pixMod (p : Pix) : Pix := (p.1 % 256, p.2.1 % 256, p.2.2 % 256)

def errTransName : String := "AssertionError: line 19, translation.__name__ not allowed"

def errNoiseName : String := "AssertionError: line 20, noise.__name__ not allowed"

def errQuartIdx : String := "AssertionError: line 42, idx not in range(0, 4)"

def errOffset : String := "AssertionError: line 74, offset > min(width, height)"

def errRot : String := "AssertionError: line 95, rot not in range(0, 4)"

def errFlipIdx : String := "AssertionError: line 108, idx not in range(0, 3)"

def errGamma : String := "AssertionError: line 139, gamma not in range(5, 16)"

/-- Embeds `t_linear` (lines 25-33): re-encode the field as an RGB uint8 image
and the mask as an L-mode uint8 image; pixel values are only reduced mod 256. -/
def t_linear (field : FieldImg) (mask : Mask) (_i : Int) : Except String (FieldImg × Mask) :=
  Except.ok (field.map (List.map pixMod), mask.map (List.map (· % 256)))

/-- The quadrant slice of `t_quartile` (lines 43-53) on an array of shape
(width, height): rows `(width / 2) * x` to `(width / 2) * (x + 1)` and columns
`(height / 2) * y` to `(height / 2) * (y + 1)` where (x, y) is quadrant `idx`. -/
def quartSlice (idx : Int) (width height : Nat) (m : Arr α) : Arr α :=
  let xy := [(0, 0), (0, 1), (1, 0), (1, 1)].getD idx.toNat (0, 0)
  slice2 ((width / 2 * xy.1 : Nat) : Int) ((width / 2 * (xy.1 + 1) : Nat) : Int)
    ((height / 2 * xy.2 : Nat) : Int) ((height / 2 * (xy.2 + 1) : Nat) : Int) m

/-- Embeds `t_quartile` (lines 36-60).  Note `width, height = mask.shape`
binds `width` to the row count and `height` to the column count. -/
def t_quartile (field : FieldImg) (mask : Mask) (idx : Int) : Except String (FieldImg × Mask) :=
  if 0 ≤ idx ∧ idx < 4 then
    let width := mask.length
    let height := (mask.headD []).length
    let field_slice := repeat2 (quartSlice idx width height field)
    let mask_slice := repeat2 (quartSlice idx width height mask)
    Except.ok (field_slice, renorm mask_slice)
  else Except.error errQuartIdx

/-- The crop of `t_offset` (lines 77-80): rows and columns
`offset` to `offset + half`, for the halved dimensions. -/
def offsetSlice (offset : Int) (width height : Nat) (m : Arr α) : Arr α :=
  slice2 offset (offset + (width : Int)) offset (offset + (height : Int)) m

/-- Embeds `t_offset` (lines 63-86): `width` and `height` are the halved mask
dimensions, the assert bounds `offset` only from above. -/
def t_offset (field : FieldImg) (mask : Mask) (offset : Int) : Except String (FieldImg × Mask) :=
  let width := mask.length / 2
  let height := (mask.headD []).length / 2
  if offset ≤ ((min width height : Nat) : Int) then
    let field_slice := repeat2 (offsetSlice offset width height field)
    let mask_slice := repeat2 (offsetSlice offset width height mask)
    Except.ok (field_slice, renorm mask_slice)
  else Except.error errOffset

/-- The rotation loop of `t_rotation` (lines 96-98): apply `rot90` to both
arrays `n` times. -/
def rotLoop : Nat → FieldImg × Mask → FieldImg × Mask
  | 0, p => p
  | n + 1, p => rotLoop n (rot90 p.1, rot90 p.2)

/-- Embeds `t_rotation` (lines 89-99). -/
def t_rotation (field : FieldImg) (mask : Mask) (rot : Int) : Except String (FieldImg × Mask) :=
  if 0 ≤ rot ∧ rot < 4 then Except.ok (rotLoop rot.toNat (field, mask))
  else Except.error errRot

/-- Embeds `t_flip` (lines 102-118); the three `if` branches of the source are
kept as a sequence, as in the code. -/
def t_flip (field : FieldImg) (mask : Mask) (idx : Int) : Except String (FieldImg × Mask) :=
  if 0 ≤ idx ∧ idx < 3 then
    let p := (field, mask)
    let p := if idx = 0 then (rot90 (fliplr p.1), rot90 (fliplr p.2)) else p
    let p := if idx = 1 then (flipud p.1, flipud p.2) else p
    let p := if idx = 2 then (fliplr p.1, fliplr p.2) else p
    Except.ok p
  else Except.error errFlipIdx

/-- The channel loop of `t_blur` (lines 128-129), acting on the copied buffer:
`for i in range(3): field[:, :, i] = gaussian_filter(field[:, :, i], sigma)`. -/
def blurChannels (f : FieldImg) (sigma : Int) : FieldImg :=
  ([0, 1, 2] : List Nat).foldl
    (fun buf i => setChannel buf i (gaussian_filter (getChannel buf i) sigma)) f

/-- Embeds `t_blur` (lines 121-130).  There is no assertion on `sigma`: the
function always succeeds.  The writes act on the `np.copy` of the field. -/
def t_blur (field : FieldImg) (mask : Mask) (sigma : Int) : Except String (FieldImg × Mask) :=
  Except.ok (blurChannels field sigma, mask)

/-- Embeds `t_gamma` (lines 133-143). -/
def t_gamma (field : FieldImg) (mask : Mask) (gamma : Int) : Except String (FieldImg × Mask) :=
  if 5 ≤ gamma ∧ gamma ≤ 15 then
    Except.ok (cvLUT field (gammaTable gamma), mask)
  else Except.error errGamma

/-- A python function value as the dispatcher sees it: a `__name__` attribute
plus the callable itself (the dispatcher checks only the name). -/
structure NamedOp where
  name : String
  fn : FieldImg → Mask → Int → Except String (FieldImg × Mask)

def nmLinear : String := "t_linear"

def nmQuartile : String := "t_quartile"

def nmOffset : String := "t_offset"

def nmRotation : String := "t_rotation"

def nmFlip : String := "t_flip"

def nmBlur : String := "t_blur"

def nmGamma : String := "t_gamma"

def t_linearOp : NamedOp := ⟨nmLinear, t_linear⟩

def t_quartileOp : NamedOp := ⟨nmQuartile, t_quartile⟩

def t_offsetOp : NamedOp := ⟨nmOffset, t_offset⟩

def t_rotationOp : NamedOp := ⟨nmRotation, t_rotation⟩

def t_flipOp : NamedOp := ⟨nmFlip, t_flip⟩

def t_blurOp : NamedOp := ⟨nmBlur, t_blur⟩

def t_gammaOp : NamedOp := ⟨nmGamma, t_gamma⟩

/-- The allowed translation names of the line 19 assert. -/
def allowedTranslations : List String := [nmLinear, nmQuartile, nmOffset]

/-- The allowed noise names of the line 20 assert. -/
def allowedNoises : List String := [nmLinear, nmRotation, nmFlip, nmBlur, nmGamma]

/-- Embeds `transform` (lines 10-22): assert the two operator names, run the
translation, feed its output to the noise operator. -/
def transform (field : FieldImg) (mask : Mask) (translation : NamedOp) (t_idx : Int)
    (noise : NamedOp) (n_idx : Int) : Except String (FieldImg × Mask) :=
  if translation.name ∈ allowedTranslations then
    if noise.name ∈ allowedNoises then
      match translation.fn field mask t_idx with
      | Except.ok p => noise.fn p.1 p.2 n_idx
      | Except.error e => Except.error e
    else Except.error errNoiseName
  else Except.error errTransName

/-- The `TRANSLATION` registry (lines 147-151): operator and inclusive range. -/
def TRANSLATION : List (NamedOp × Int × Int) :=
  [(t_linearOp, 0, 0), (t_quartileOp, 0, 3), (t_offsetOp, 0, 512)]

/-- The `NOISE` registry (lines 152-158): operator and inclusive range. -/
def NOISE : List (NamedOp × Int × Int) :=
  [(t_linearOp, 0, 0), (t_rotationOp, 0, 3), (t_flipOp, 0, 2),
    (t_blurOp, 1, 3), (t_gammaOp, 8, 12)]

/-- Scalar residue of the renumbering loop: the value an individual mask entry
`x` ends up with after the indexed replacements `ps` ran over the whole array. -/
def renormVal (ps : List (Nat × Nat)) (x : Nat) : Nat :=
  ps.foldl (fun a p => if a = p.2 then p.1 + 1 else a) x

/-- A store of numpy array objects; an address is an index into the list.
Used to express which array object the in-place writes of `t_blur` target. -/
structure NpStore where
  arrays : List FieldImg

/-- Read the array at address `a`. -/
def NpStore.read (σ : NpStore) (a : Nat) : FieldImg := σ.arrays.getD a []

/-- Allocate a fresh array object holding `f` (`np.copy` allocates). -/
def NpStore.alloc (σ : NpStore) (f : FieldImg) : Nat × NpStore :=
  (σ.arrays.length, ⟨σ.arrays ++ [f]⟩)

/-- Overwrite the array object at address `a`. -/
def NpStore.write (σ : NpStore) (a : Nat) (f : FieldImg) : NpStore :=
  ⟨σ.arrays.set a f⟩

/-- Embeds `t_blur` (lines 121-130) at the level of array objects:
line 127 `field = np.copy(field)` allocates a fresh array and rebinds the
local name to it, so the channel writes of line 129 target that copy, never
the array at the caller address `aField`. -/
def t_blurStore (σ : NpStore) (aField : Nat) (mask : Mask) (sigma : Int) :
    (Nat × Mask) × NpStore :=
  let alloc := σ.alloc (σ.read aField)
  let b := alloc.1
  let σ₂ := ([0, 1, 2] : List Nat).foldl
    (fun σ i =>
      σ.write b (setChannel (σ.read b) i (gaussian_filter (getChannel (σ.read b) i) sigma)))
    alloc.2
  ((b, mask), σ₂)

/-- The three translation operators, as a choice type used to quantify over
every (operator, index) configuration the spec calls valid. -/
inductive TransChoice where
  | linear
  | quartile
  | offset

/-- The dispatcher-level value of a translation choice. -/
def TransChoice.op : TransChoice → NamedOp
  | .linear => t_linearOp
  | .quartile => t_quartileOp
  | .offset => t_offsetOp

/-- The documented valid index range of each translation operator, for an
input of spatial dimensions n×n: identity takes only 0, quartile-split takes
0..3, offset-crop takes 0..n/2 (half of the smaller dimension). -/
def TransChoice.valid : TransChoice → Int → Nat → Prop
  | .linear, i, _ => i = 0
  | .quartile, i, _ => 0 ≤ i ∧ i ≤ 3
  | .offset, i, n => 0 ≤ i ∧ i ≤ (n / 2 : Nat)

/-- The five noise operators, as a choice type. -/
inductive NoiseChoice where
  | linear
  | rotation
  | flip
  | blur
  | gamma

/-- The dispatcher-level value of a noise choice. -/
def NoiseChoice.op : NoiseChoice → NamedOp
  | .linear => t_linearOp
  | .rotation => t_rotationOp
  | .flip => t_flipOp
  | .blur => t_blurOp
  | .gamma => t_gammaOp

/-- The documented valid index range of each noise operator: identity only 0,
rotation 0..3, flip 0..2, blur 1..3 (registry range), gamma 5..15. -/
def NoiseChoice.valid : NoiseChoice → Int → Prop
  | .linear, i => i = 0
  | .rotation, i => 0 ≤ i ∧ i ≤ 3
  | .flip, i => 0 ≤ i ∧ i ≤ 2
  | .blur, i => 1 ≤ i ∧ i ≤ 3
  | .gamma, i => 5 ≤ i ∧ i ≤ 15

/-- Concrete 3×3 field used in counterexamples. -/
def exF3 : FieldImg :=
  [[(1, 1, 1), (2, 2, 2), (3, 3, 3)],
   [(4, 4, 4), (5, 5, 5), (6, 6, 6)],
   [(7, 7, 7), (8, 8, 8), (9, 9, 9)]]

/-- Concrete 3×3 mask used in counterexamples. -/
def exM3 : Mask := [[0, 0, 1], [0, 5, 1], [2, 2, 0]]

/-- Concrete 2×2 field used in examples and witnesses. -/
def exF2 : FieldImg := [[(10, 20, 30), (40, 50, 60)], [(70, 80, 90), (100, 110, 120)]]

/-- Concrete 2×2 mask with a non-contiguous label, used for C6. -/
def exM2 : Mask := [[5, 0], [0, 0]]

/-- Concrete 4×4 field used for the negative-offset counterexample. -/
def exF4 : FieldImg :=
  [[(1, 1, 1), (2, 2, 2), (3, 3, 3), (4, 4, 4)],
   [(4, 4, 4), (5, 5, 5), (6, 6, 6), (7, 7, 7)],
   [(7, 7, 7), (8, 8, 8), (9, 9, 9), (1, 1, 1)],
   [(2, 2, 2), (3, 3, 3), (4, 4, 4), (5, 5, 5)]]

/-- Concrete 4×4 mask (the end-to-end example mask of the spec). -/
def exM4 : Mask := [[0, 0, 1, 1], [0, 0, 1, 1], [2, 2, 0, 0], [2, 2, 0, 0]]

/-- A bogus operator name, for exercising the dispatcher assertion. -/
def nmBogus : String := "t_bogus"

/-! ## Unfolding lemmas for the operators -/

theorem t_quartile_ok (f : FieldImg) (m : Mask) (i : Int) (h : 0 ≤ i ∧ i < 4) :
    t_quartile f m i =
      Except.ok (repeat2 (quartSlice i m.length (m.headD []).length f),
        renorm (repeat2 (quartSlice i m.length (m.headD []).length m))) := by
  unfold t_quartile
  rw [if_pos h]

theorem t_quartile_err (f : FieldImg) (m : Mask) (i : Int) (h : i < 0 ∨ 3 < i) :
    t_quartile f m i = Except.error errQuartIdx := by
  unfold t_quartile
  rw [if_neg]
  rintro ⟨h0, h4⟩
  omega

theorem t_offset_ok (f : FieldImg) (m : Mask) (off : Int)
    (h : off ≤ ((min (m.length / 2) ((m.headD []).length / 2) : Nat) : Int)) :
    t_offset f m off =
      Except.ok (repeat2 (offsetSlice off (m.length / 2) ((m.headD []).length / 2) f),
        renorm (repeat2 (offsetSlice off (m.length / 2) ((m.headD []).length / 2) m))) := by
  unfold t_offset
  rw [if_pos h]

theorem t_offset_err (f : FieldImg) (m : Mask) (off : Int)
    (h : ((min (m.length / 2) ((m.headD []).length / 2) : Nat) : Int) < off) :
    t_offset f m off = Except.error errOffset := by
  unfold t_offset
  rw [if_neg]
  omega

theorem t_rotation_ok (f : FieldImg) (m : Mask) (r : Int) (h : 0 ≤ r ∧ r < 4) :
    t_rotation f m r = Except.ok (rotLoop r.toNat (f, m)) := by
  unfold t_rotation
  rw [if_pos h]

theorem t_rotation_err (f : FieldImg) (m : Mask) (r : Int) (h : r < 0 ∨ 3 < r) :
    t_rotation f m r = Except.error errRot := by
  unfold t_rotation
  rw [if_neg]
  rintro ⟨h0, h4⟩
  omega

theorem t_flip_err (f : FieldImg) (m : Mask) (i : Int) (h : i < 0 ∨ 2 < i) :
    t_flip f m i = Except.error errFlipIdx := by
  unfold t_flip
  rw [if_neg]
  rintro ⟨h0, h3⟩
  omega

theorem t_gamma_ok (f : FieldImg) (m : Mask) (g : Int) (h1 : 5 ≤ g) (h2 : g ≤ 15) :
    t_gamma f m g = Except.ok (cvLUT f (gammaTable g), m) := by
  unfold t_gamma
  rw [if_pos ⟨h1, h2⟩]

theorem t_gamma_err (f : FieldImg) (m : Mask) (g : Int) (h : g < 5 ∨ 15 < g) :
    t_gamma f m g = Except.error errGamma := by
  unfold t_gamma
  rw [if_neg]
  rintro ⟨h1, h2⟩
  omega

theorem transform_ok_names (f : FieldImg) (m : Mask) (t n : NamedOp) (ti ni : Int)
    (ht : t.name ∈ allowedTranslations) (hn : n.name ∈ allowedNoises) :
    transform f m t ti n ni =
      match t.fn f m ti with
      | Except.ok p => n.fn p.1 p.2 ni
      | Except.error e => Except.error e := by
  unfold transform
  rw [if_pos ht, if_pos hn]

/-! ## C3: dispatcher contract -/

/-- C3: `transform` fails with the operator-identity validation error, invoking
neither operator, unless the translation name is one of the three allowed
translations and the noise name one of the five allowed noises (the error is the
same whatever callables are attached to the names, so no partial work happens);
when both name checks pass it runs the translation on (field, mask, t_idx) and
feeds the intermediate pair and n_idx to the noise operator, returning its
result. -/
theorem C3_dispatch :
    (∀ (f : FieldImg) (m : Mask) (t n : NamedOp) (ti ni : Int),
        t.name ∉ allowedTranslations →
        transform f m t ti n ni = Except.error errTransName)
    ∧ (∀ (f : FieldImg) (m : Mask) (t n : NamedOp) (ti ni : Int),
        t.name ∈ allowedTranslations → n.name ∉ allowedNoises →
        transform f m t ti n ni = Except.error errNoiseName)
    ∧ (∀ (f : FieldImg) (m : Mask) (t n : NamedOp) (ti ni : Int),
        t.name ∈ allowedTranslations → n.name ∈ allowedNoises →
        transform f m t ti n ni =
          match t.fn f m ti with
          | Except.ok p => n.fn p.1 p.2 ni
          | Except.error e => Except.error e) := by
  refine ⟨?_, ?_, ?_⟩
  · intro f m t n ti ni ht
    unfold transform
    rw [if_neg ht]
  · intro f m t n ti ni ht hn
    unfold transform
    rw [if_pos ht, if_neg hn]
  · intro f m t n ti ni ht hn
    exact transform_ok_names f m t n ti ni ht hn

/-- Witness for C3 at concrete inputs: a wrong name is rejected with the
validation error even though the attached callable is fine, and a valid
configuration runs translation then noise. -/
theorem C3_dispatch_witness :
    (transform exF2 exM2 ⟨nmBogus, t_linear⟩ 0 t_linearOp 0 = Except.error errTransName)
    ∧ (transform exF2 exM2 t_linearOp 0 ⟨nmBogus, t_flip⟩ 0 = Except.error errNoiseName)
    ∧ (transform exF2 exM2 t_quartileOp 0 t_flipOp 1 =
        match t_quartileOp.fn exF2 exM2 0 with
        | Except.ok p => t_flipOp.fn p.1 p.2 1
        | Except.error e => Except.error e) :=
  ⟨C3_dispatch.1 exF2 exM2 ⟨nmBogus, t_linear⟩ t_linearOp 0 0 (by decide),
   C3_dispatch.2.1 exF2 exM2 t_linearOp ⟨nmBogus, t_flip⟩ 0 0 (by decide) (by decide),
   C3_dispatch.2.2 exF2 exM2 t_quartileOp t_flipOp 0 1 (by decide) (by decide)⟩

/-! ## C5: identity plus identity round trip -/

theorem pixMod_pixMod (p : Pix) : pixMod (pixMod p) = pixMod p := by
  unfold pixMod
  simp only [Prod.mk.injEq]
  omega

/-- C5: with the identity translation and the identity noise, `transform`
returns exactly the input pair re-encoded to 8 bits (every channel and mask
value reduced mod 256); in particular, on arrays whose values already fit in
8 bits the pair comes back numerically equal. -/
theorem C5_identity_roundtrip :
    (∀ (f : FieldImg) (m : Mask),
        transform f m t_linearOp 0 t_linearOp 0 =
          Except.ok (f.map (List.map pixMod), m.map (List.map (· % 256))))
    ∧ (∀ (f : FieldImg) (m : Mask),
        (∀ p ∈ f.flatten, pixMod p = p) → (∀ v ∈ m.flatten, v < 256) →
        transform f m t_linearOp 0 t_linearOp 0 = Except.ok (f, m)) := by
  have key : ∀ (f : FieldImg) (m : Mask),
      transform f m t_linearOp 0 t_linearOp 0 =
        Except.ok (f.map (List.map pixMod), m.map (List.map (· % 256))) := by
    intro f m
    show Except.ok ((f.map (List.map pixMod)).map (List.map pixMod),
      (m.map (List.map (· % 256))).map (List.map (· % 256))) = _
    rw [List.map_map, List.map_map]
    congr 2
    · apply List.map_congr_left
      intro r _
      rw [Function.comp_apply, List.map_map]
      apply List.map_congr_left
      intro p _
      exact pixMod_pixMod p
    · apply List.map_congr_left
      intro r _
      rw [Function.comp_apply, List.map_map]
      apply List.map_congr_left
      intro v _
      show v % 256 % 256 = v % 256
      omega
  refine ⟨key, ?_⟩
  intro f m hf hm
  rw [key f m]
  congr 2
  · rw [List.map_congr_left (g := id) ?_, List.map_id]
    intro r hr
    rw [show id r = r from rfl]
    apply List.map_congr_left ?_ |>.trans (List.map_id r)
    intro p hp
    exact hf p (List.mem_flatten.mpr ⟨r, hr, hp⟩)
  · rw [List.map_congr_left (g := id) ?_, List.map_id]
    intro r hr
    rw [show id r = r from rfl]
    apply List.map_congr_left ?_ |>.trans (List.map_id r)
    intro v hv
    exact Nat.mod_eq_of_lt (hm v (List.mem_flatten.mpr ⟨r, hr, hv⟩))

/-- Witness for C5 on a concrete in-range pair. -/
theorem C5_identity_witness :
    transform exF2 exM2 t_linearOp 0 t_linearOp 0 = Except.ok (exF2, exM2) :=
  C5_identity_roundtrip.2 exF2 exM2 (by decide) (by decide)

/-! ## C7: gamma parameter range -/

/-- C7: the gamma operator fails with its range assertion for every index
outside 5..15 (so in particular for 4 and 16) and succeeds for every index
inside 5..15. -/
theorem C7_gamma_range :
    ∀ (f : FieldImg) (m : Mask) (g : Int),
      ((g < 5 ∨ 15 < g) → t_gamma f m g = Except.error errGamma)
      ∧ (5 ≤ g → g ≤ 15 → ∃ out, t_gamma f m g = Except.ok out) := by
  intro f m g
  refine ⟨fun h => t_gamma_err f m g h, fun h1 h2 => ⟨_, t_gamma_ok f m g h1 h2⟩⟩

/-- Witness for C7 at indices 4, 16 and 10. -/
theorem C7_gamma_witness :
    (t_gamma exF2 exM2 4 = Except.error errGamma)
    ∧ (t_gamma exF2 exM2 16 = Except.error errGamma)
    ∧ (∃ out, t_gamma exF2 exM2 10 = Except.ok out) :=
  ⟨(C7_gamma_range exF2 exM2 4).1 (Or.inl (by decide)),
   (C7_gamma_range exF2 exM2 16).1 (Or.inr (by decide)),
   (C7_gamma_range exF2 exM2 10).2 (by decide) (by decide)⟩

/-! ## C9: vertical flip is an involution -/

/-- C9: applying the flip operator with index 1 (reverse row order) twice in a
row returns the original field and mask. -/
theorem C9_flip_involution :
    ∀ (f f2 : FieldImg) (m m2 : Mask),
      t_flip f m 1 = Except.ok (f2, m2) → t_flip f2 m2 1 = Except.ok (f, m) := by
  intro f f2 m m2 h
  have h1 : t_flip f m 1 = Except.ok (flipud f, flipud m) := rfl
  rw [h1] at h
  obtain ⟨hf, hm⟩ : flipud f = f2 ∧ flipud m = m2 := by
    cases h
    exact ⟨rfl, rfl⟩
  subst hf
  subst hm
  show Except.ok (flipud (flipud f), flipud (flipud m)) = _
  unfold flipud
  rw [List.reverse_reverse, List.reverse_reverse]

/-- Witness for C9 on a concrete pair. -/
theorem C9_flip_witness :
    t_flip (flipud exF2) (flipud exM2) 1 = Except.ok (exF2, exM2) :=
  C9_flip_involution exF2 (flipud exF2) exM2 (flipud exM2) rfl

/-! ## C10: negative offsets pass the crop validation -/

/-- C10: the offset-crop assertion bounds the offset only from above, so every
negative offset passes validation and the call succeeds; at offset -1 on a 4×4
pair the python slice `field[-1 : -1 + 2]` is empty (start index 3, stop index
1), so the returned pair is a pair of empty arrays, with a height different
from the input height. -/
theorem C10_negative_offset :
    (∀ (f : FieldImg) (m : Mask) (off : Int), off < 0 →
        ∃ p, t_offset f m off = Except.ok p)
    ∧ t_offset exF4 exM4 (-1) = Except.ok ([], [])
    ∧ (([] : Mask).length ≠ exM4.length) := by
  refine ⟨?_, rfl, by decide⟩
  intro f m off hoff
  exact ⟨_, t_offset_ok f m off
    (le_trans (le_of_lt hoff) (Int.natCast_nonneg _))⟩

/-- Witness for C10 at offset -2. -/
theorem C10_negative_offset_witness :
    ∃ p, t_offset exF4 exM4 (-2) = Except.ok p :=
  C10_negative_offset.1 exF4 exM4 (-2) (by decide)

/-! ## C4: index-range assertions -/

theorem min_div_two (a b : Nat) : min a b / 2 = min (a / 2) (b / 2) := by
  rcases le_total a b with h | h
  · rw [min_eq_left h, min_eq_left (Nat.div_le_div_right h)]
  · rw [min_eq_right h, min_eq_right (Nat.div_le_div_right h)]

theorem t_offset_err_minform (f : FieldImg) (m : Mask) (off : Int)
    (h : ((min m.length (m.headD []).length / 2 : Nat) : Int) < off) :
    t_offset f m off = Except.error errOffset := by
  apply t_offset_err
  rwa [← min_div_two]

/-- C4 counterexample: the claim says the blur operator fails when its sigma
index lies outside 1..3, but `t_blur` contains no range assertion at all, so at
sigma = 4 it succeeds. -/
theorem C4_counterexample :
    ∃ p, t_blur exF2 exM2 4 = Except.ok p := ⟨_, rfl⟩

/-- C4 amended: every operator guarded by an in-code assertion (quartile-split,
offset-crop, rotation, flip, gamma) fails immediately when its index is outside
the documented valid range; the blur operator, however, performs no range check
on sigma and succeeds for every sigma, returning the mask untouched. -/
theorem C4_range_asserts :
    (∀ (f : FieldImg) (m : Mask) (i : Int), (i < 0 ∨ 3 < i) →
        t_quartile f m i = Except.error errQuartIdx)
    ∧ (∀ (f : FieldImg) (m : Mask) (off : Int),
        ((min m.length (m.headD []).length / 2 : Nat) : Int) < off →
        t_offset f m off = Except.error errOffset)
    ∧ (∀ (f : FieldImg) (m : Mask) (r : Int), (r < 0 ∨ 3 < r) →
        t_rotation f m r = Except.error errRot)
    ∧ (∀ (f : FieldImg) (m : Mask) (i : Int), (i < 0 ∨ 2 < i) →
        t_flip f m i = Except.error errFlipIdx)
    ∧ (∀ (f : FieldImg) (m : Mask) (g : Int), (g < 5 ∨ 15 < g) →
        t_gamma f m g = Except.error errGamma)
    ∧ (∀ (f : FieldImg) (m : Mask) (s : Int), ∃ p, t_blur f m s = Except.ok (p, m)) :=
  ⟨t_quartile_err, fun f m off h => t_offset_err_minform f m off h,
   t_rotation_err, t_flip_err, t_gamma_err,
   fun f _ s => ⟨blurChannels f s, rfl⟩⟩

/-- Witness for C4 at concrete out-of-range indices. -/
theorem C4_range_witness :
    (t_quartile exF2 exM2 4 = Except.error errQuartIdx)
    ∧ (t_offset exF4 exM4 3 = Except.error errOffset)
    ∧ (t_rotation exF2 exM2 (-1) = Except.error errRot)
    ∧ (t_flip exF2 exM2 3 = Except.error errFlipIdx)
    ∧ (t_gamma exF2 exM2 16 = Except.error errGamma)
    ∧ (∃ p, t_blur exF2 exM2 0 = Except.ok (p, exM2)) :=
  ⟨C4_range_asserts.1 exF2 exM2 4 (Or.inr (by decide)),
   C4_range_asserts.2.1 exF4 exM4 3 (by decide),
   C4_range_asserts.2.2.1 exF2 exM2 (-1) (Or.inl (by decide)),
   C4_range_asserts.2.2.2.1 exF2 exM2 3 (Or.inr (by decide)),
   C4_range_asserts.2.2.2.2.1 exF2 exM2 16 (Or.inr (by decide)),
   C4_range_asserts.2.2.2.2.2 exF2 exM2 0⟩

/-! ## C6: offset-crop at offset 0 and the upper precondition -/

theorem pyIdx_natCast (n a : Nat) : pyIdx n ((a : Nat) : Int) = min a n := by
  unfold pyIdx
  rw [if_neg (Int.not_lt.mpr (Int.natCast_nonneg a)), Int.toNat_natCast]

theorem take_min_length (w : Nat) (l : List α) : l.take (min w l.length) = l.take w := by
  rcases le_total w l.length with h | h
  · rw [min_eq_left h]
  · rw [min_eq_right h, List.take_length, List.take_of_length_le h]

theorem pyslice_zero (b : Nat) (l : List α) : pyslice 0 ((b : Nat) : Int) l = l.take b := by
  unfold pyslice
  rw [show (0 : Int) = ((0 : Nat) : Int) from rfl, pyIdx_natCast, pyIdx_natCast,
    min_eq_left (Nat.zero_le _), List.drop_zero, Nat.sub_zero, take_min_length]

theorem offsetSlice_zero (w h : Nat) (m : Arr α) :
    offsetSlice 0 w h m = (m.take w).map (List.take h) := by
  unfold offsetSlice slice2
  rw [zero_add, zero_add, pyslice_zero]
  apply List.map_congr_left
  intro r _
  exact pyslice_zero h r

/-- C6 counterexample: the claim says offset-crop with offset 0 returns the
replicated top-left half-region, but the returned mask is additionally
label-renormalised: on a 2×2 mask whose only label is 5, the replicated
top-left region is all 5 while the returned mask is all 1. -/
theorem C6_counterexample :
    ∃ p, t_offset exF2 exM2 0 = Except.ok p
      ∧ repeat2 (offsetSlice 0 (exM2.length / 2) ((exM2.headD []).length / 2) exM2)
          = [[5, 5], [5, 5]]
      ∧ p.2 ≠ [[5, 5], [5, 5]] :=
  ⟨_, rfl, by decide, by decide⟩

/-- C6 amended: offset-crop with offset 0 returns the field as the top-left
H/2×W/2 region replicated 2× along each spatial axis, and the mask as that
same replicated region with its labels renormalised; for every offset strictly
greater than half the smaller spatial dimension it fails with the offset
precondition violation. -/
theorem C6_offset_zero :
    (∀ (f : FieldImg) (m : Mask),
        t_offset f m 0 =
          Except.ok
            (repeat2 ((f.take (m.length / 2)).map (List.take ((m.headD []).length / 2))),
             renorm (repeat2 ((m.take (m.length / 2)).map
               (List.take ((m.headD []).length / 2))))))
    ∧ (∀ (f : FieldImg) (m : Mask) (off : Int),
        ((min m.length (m.headD []).length / 2 : Nat) : Int) < off →
        t_offset f m off = Except.error errOffset) := by
  constructor
  · intro f m
    rw [t_offset_ok f m 0 (Int.natCast_nonneg _), offsetSlice_zero, offsetSlice_zero]
  · exact t_offset_err_minform

/-- Witness for C6 on concrete pairs (the hypothesis-bearing second part is
instantiated at offset 3 on a 4×4 pair). -/
theorem C6_offset_witness :
    (t_offset exF4 exM4 0 =
        Except.ok
          (repeat2 ((exF4.take (exM4.length / 2)).map
            (List.take ((exM4.headD []).length / 2))),
           renorm (repeat2 ((exM4.take (exM4.length / 2)).map
             (List.take ((exM4.headD []).length / 2))))))
    ∧ (t_offset exF4 exM4 3 = Except.error errOffset) :=
  ⟨C6_offset_zero.1 exF4 exM4, C6_offset_zero.2 exF4 exM4 3 (by decide)⟩

/-! ## C8: blur does not mutate the caller array; blur and gamma keep the mask -/

theorem NpStore.read_write_ne (σ : NpStore) (a b : Nat) (f : FieldImg) (h : a ≠ b) :
    (σ.write b f).read a = σ.read a := by
  unfold NpStore.write NpStore.read
  rw [List.getD_eq_getD_get?, List.getD_eq_getD_get?, List.get?_eq_getElem?,
    List.get?_eq_getElem?, List.getElem?_set_ne (Ne.symm h)]

theorem NpStore.read_alloc_lt (σ : NpStore) (f : FieldImg) (a : Nat)
    (h : a < σ.arrays.length) : ((σ.alloc f).2).read a = σ.read a := by
  unfold NpStore.alloc NpStore.read
  rw [List.getD_eq_getD_get?, List.getD_eq_getD_get?, List.get?_eq_getElem?,
    List.get?_eq_getElem?, List.getElem?_append_left h]

theorem foldl_write_read (L : List Nat) (b a : Nat) (h : a ≠ b)
    (g : NpStore → Nat → FieldImg) :
    ∀ σ : NpStore, (L.foldl (fun σ i => σ.write b (g σ i)) σ).read a = σ.read a := by
  induction L with
  | nil => intro σ; rfl
  | cons x xs ih =>
    intro σ
    rw [List.foldl_cons, ih, NpStore.read_write_ne _ _ _ _ h]

/-- C8: in the array-object store model, `t_blur` allocates a copy of the
caller field (line 127) and all channel writes (line 129) target that copy, so
the array at the caller address is unchanged after the call; moreover both
blur and gamma return the mask with its values untouched. -/
theorem C8_no_mutation :
    (∀ (σ : NpStore) (a : Nat) (m : Mask) (s : Int), a < σ.arrays.length →
        ((t_blurStore σ a m s).2).read a = σ.read a)
    ∧ (∀ (f : FieldImg) (m : Mask) (s : Int), ∃ f2, t_blur f m s = Except.ok (f2, m))
    ∧ (∀ (f : FieldImg) (m : Mask) (g : Int), 5 ≤ g → g ≤ 15 →
        ∃ f2, t_gamma f m g = Except.ok (f2, m)) := by
  refine ⟨?_, fun f m s => ⟨_, rfl⟩, fun f m g h1 h2 => ⟨_, t_gamma_ok f m g h1 h2⟩⟩
  intro σ a m s ha
  simp only [t_blurStore]
  rw [show (σ.alloc (σ.read a)).1 = σ.arrays.length from rfl,
    foldl_write_read _ _ _ (Nat.ne_of_lt ha) _, NpStore.read_alloc_lt σ _ a ha]

/-- Witness for C8 on a one-array store and a concrete gamma call. -/
theorem C8_no_mutation_witness :
    (((t_blurStore ⟨[exF2]⟩ 0 exM2 2).2).read 0 = NpStore.read ⟨[exF2]⟩ 0)
    ∧ (∃ f2, t_blur exF2 exM2 2 = Except.ok (f2, exM2))
    ∧ (∃ f2, t_gamma exF2 exM2 10 = Except.ok (f2, exM2)) :=
  ⟨C8_no_mutation.1 ⟨[exF2]⟩ 0 exM2 2 (by decide),
   C8_no_mutation.2.1 exF2 exM2 2,
   C8_no_mutation.2.2 exF2 exM2 10 (by decide) (by decide)⟩

/-! ## Shape lemmas -/

theorem rect_map (g : α → β) {m : Arr α} {h w : Nat} (hm : rect m h w) :
    rect (m.map (List.map g)) h w := by
  obtain ⟨h1, h2⟩ := hm
  refine ⟨by simpa using h1, ?_⟩
  intro r hr
  obtain ⟨r0, hr0, rfl⟩ := List.mem_map.mp hr
  simpa using h2 r0 hr0

theorem length_doubled (l : List α) : (l.flatMap (fun x => [x, x])).length = 2 * l.length := by
  induction l with
  | nil => rfl
  | cons x xs ih =>
    rw [List.flatMap_cons]
    simp only [List.length_append, List.length_cons, List.length_nil, ih]
    omega

theorem mem_doubled (l : List α) (x : α) : x ∈ l.flatMap (fun y => [y, y]) ↔ x ∈ l := by
  rw [List.mem_flatMap]
  constructor
  · rintro ⟨y, hy, hx⟩
    have : x = y := by simpa using hx
    exact this ▸ hy
  · intro hx
    exact ⟨x, hx, by simp⟩

theorem rect_repeat2 {m : Arr α} {h w : Nat} (hm : rect m h w) :
    rect (repeat2 m) (2 * h) (2 * w) := by
  obtain ⟨h1, h2⟩ := hm
  unfold repeat2 repeatCols repeatRows
  constructor
  · rw [List.length_map, length_doubled, h1]
  · intro r hr
    obtain ⟨r0, hr0, rfl⟩ := List.mem_map.mp hr
    rw [length_doubled, h2 r0 ((mem_doubled m r0).mp hr0)]

theorem length_pyslice_nat (a b : Nat) (l : List α) (hab : a ≤ b) (hb : b ≤ l.length) :
    (pyslice ((a : Nat) : Int) ((b : Nat) : Int) l).length = b - a := by
  unfold pyslice
  rw [pyIdx_natCast, pyIdx_natCast, min_eq_left (le_trans hab hb), min_eq_left hb,
    List.length_take, List.length_drop]
  omega

theorem mem_pyslice {a b : Int} {l : List α} {r : α} (h : r ∈ pyslice a b l) : r ∈ l :=
  List.mem_of_mem_drop (List.mem_of_mem_take h)

theorem rect_slice2_nat {m : Arr α} {H W : Nat} (a b c d : Nat) (hm : rect m H W)
    (hab : a ≤ b) (hb : b ≤ H) (hcd : c ≤ d) (hd : d ≤ W) :
    rect (slice2 ((a : Nat) : Int) ((b : Nat) : Int) ((c : Nat) : Int) ((d : Nat) : Int) m)
      (b - a) (d - c) := by
  obtain ⟨h1, h2⟩ := hm
  unfold slice2
  constructor
  · rw [List.length_map, length_pyslice_nat a b m hab (h1 ▸ hb)]
  · intro r hr
    obtain ⟨r0, hr0, rfl⟩ := List.mem_map.mp hr
    rw [length_pyslice_nat c d r0 hcd ((h2 r0 (mem_pyslice hr0)) ▸ hd)]

theorem headD_length {m : Arr α} {n : Nat} (hm : rect m n n) :
    (m.headD []).length = n := by
  obtain ⟨h1, h2⟩ := hm
  cases m with
  | nil => exact h1
  | cons r rs => exact h2 r (List.mem_cons_self r rs)

theorem filterMap_get?_length (j : Nat) :
    ∀ m : Arr α, (∀ r ∈ m, j < r.length) →
      (m.filterMap (fun r => r.get? j)).length = m.length := by
  intro m
  induction m with
  | nil => intro _; rfl
  | cons r rs ih =>
    intro h
    rw [List.filterMap_cons,
      List.get?_eq_get (h r (List.mem_cons_self r rs))]
    simp only [List.length_cons]
    rw [ih (fun r0 hr0 => h r0 (List.mem_cons_of_mem r hr0))]

theorem rect_transposeA {m : Arr α} {n : Nat} (hm : rect m n n) :
    rect (transposeA m) n n := by
  obtain ⟨h1, h2⟩ := hm
  unfold transposeA
  constructor
  · rw [List.length_map, List.length_range, headD_length ⟨h1, h2⟩]
  · intro r hr
    obtain ⟨j, hj, rfl⟩ := List.mem_map.mp hr
    rw [List.mem_range, headD_length ⟨h1, h2⟩] at hj
    rw [filterMap_get?_length j m (fun r0 hr0 => (h2 r0 hr0).symm ▸ hj), h1]

theorem rect_rot90 {m : Arr α} {n : Nat} (hm : rect m n n) : rect (rot90 m) n n := by
  obtain ⟨h1, h2⟩ := rect_transposeA hm
  unfold rot90
  exact ⟨by rw [List.length_reverse, h1], fun r hr => h2 r (List.mem_reverse.mp hr)⟩

theorem rect_flipud {m : Arr α} {h w : Nat} (hm : rect m h w) : rect (flipud m) h w := by
  obtain ⟨h1, h2⟩ := hm
  exact ⟨by rw [flipud, List.length_reverse, h1],
    fun r hr => h2 r (List.mem_reverse.mp hr)⟩

theorem rect_fliplr {m : Arr α} {h w : Nat} (hm : rect m h w) : rect (fliplr m) h w := by
  obtain ⟨h1, h2⟩ := hm
  unfold fliplr
  refine ⟨by simpa using h1, ?_⟩
  intro r hr
  obtain ⟨r0, hr0, rfl⟩ := List.mem_map.mp hr
  rw [List.length_reverse]
  exact h2 r0 hr0

theorem rect_rotLoop {n : Nat} :
    ∀ (k : Nat) (p : FieldImg × Mask), rect p.1 n n → rect p.2 n n →
      rect (rotLoop k p).1 n n ∧ rect (rotLoop k p).2 n n := by
  intro k
  induction k with
  | zero => intro p hf hm; exact ⟨hf, hm⟩
  | succ j ih =>
    intro p hf hm
    exact ih (rot90 p.1, rot90 p.2) (rect_rot90 hf) (rect_rot90 hm)

theorem rect_setChannel {f : FieldImg} {h w : Nat} (i : Nat) (img : Arr Nat)
    (hf : rect f h w) : rect (setChannel f i img) h w := by
  obtain ⟨h1, h2⟩ := hf
  unfold setChannel
  constructor
  · rw [List.length_map, List.enum_length, h1]
  · intro r hr
    obtain ⟨rc, hrc, rfl⟩ := List.mem_map.mp hr
    rw [List.length_map, List.enum_length]
    obtain ⟨rc1, rc2⟩ := rc
    obtain ⟨_, heq⟩ := List.mem_enum hrc
    exact heq ▸ h2 _ (List.getElem_mem _)

theorem rect_blurChannels {f : FieldImg} {h w : Nat} (s : Int) (hf : rect f h w) :
    rect (blurChannels f s) h w := by
  unfold blurChannels
  rw [List.foldl_cons, List.foldl_cons, List.foldl_cons, List.foldl_nil]
  exact rect_setChannel _ _ (rect_setChannel _ _ (rect_setChannel _ _ hf))

/-! ## C2: label-contiguity renormalisation -/

theorem renormVal_cons (n v : Nat) (ps : List (Nat × Nat)) (x : Nat) :
    renormVal ((n, v) :: ps) x = renormVal ps (if x = v then n + 1 else x) := rfl

/-- The array-level renumbering fold is the pointwise scalar fold. -/
theorem foldl_substArr (ps : List (Nat × Nat)) :
    ∀ m : Arr Nat,
      ps.foldl (fun acc p => substArr acc p.2 (p.1 + 1)) m
        = m.map (List.map (renormVal ps)) := by
  induction ps with
  | nil =>
    intro m
    rw [List.foldl_nil]
    induction m with
    | nil => rfl
    | cons r rs ih =>
      rw [List.map_cons, ← ih]
      congr 1
      induction r with
      | nil => rfl
      | cons x xs ihx =>
        rw [List.map_cons, ← ihx]
        exact rfl
  | cons p ps ih =>
    intro m
    rw [List.foldl_cons, ih]
    unfold substArr
    rw [List.map_map]
    apply List.map_congr_left
    intro r _
    rw [Function.comp_apply, List.map_map]
    apply List.map_congr_left
    intro x _
    rfl

/-- A value that never occurs among the replacement sources passes through the
renumbering loop unchanged. -/
theorem renormVal_skip (vals : List Nat) :
    ∀ (n x : Nat), x ∉ vals → renormVal (List.enumFrom n vals) x = x := by
  induction vals with
  | nil => intro n x _; rfl
  | cons v vs ih =>
    intro n x h
    rw [List.enumFrom_cons, renormVal_cons,
      if_neg (fun he => h (by rw [he]; exact List.mem_cons_self v vs))]
    exact ih (n + 1) x (fun hx => h (List.mem_cons_of_mem v hx))

/-- Background 0 is never renumbered (all replacement sources are non-zero). -/
theorem renormVal_zero (vals : List Nat) (hv : ∀ v ∈ vals, v ≠ 0) (n : Nat) :
    renormVal (List.enumFrom n vals) 0 = 0 :=
  renormVal_skip vals n 0 (fun h => hv 0 h rfl)

/-- A value occurring at position `i` of the strictly sorted replacement list
ends at `n + i + 1` after the renumbering loop starting at counter `n`: the
strictly increasing lower bound rules out every later collision. -/
theorem renormVal_hit (vals : List Nat) :
    ∀ (n i x : Nat), vals.Pairwise (· < ·) → (∀ v ∈ vals, n < v) →
      vals.get? i = some x → renormVal (List.enumFrom n vals) x = n + i + 1 := by
  induction vals with
  | nil => intro n i x _ _ h; cases h
  | cons v vs ih =>
    intro n i x hs hlb hget
    rw [List.enumFrom_cons, renormVal_cons]
    obtain ⟨hv_lt, hvs⟩ := List.pairwise_cons.mp hs
    cases i with
    | zero =>
      have hx : x = v := by
        injection hget with h
        exact h.symm
      have hnot : (n + 1) ∉ vs := by
        intro hmem
        have h1 : v < n + 1 := hv_lt _ hmem
        have h2 : n < v := hlb v (List.mem_cons_self v vs)
        omega
      rw [if_pos hx, renormVal_skip vs (n + 1) (n + 1) hnot]
    | succ j =>
      have hget2 : vs.get? j = some x := hget
      have hxvs : x ∈ vs := by
        obtain ⟨hlt, heq⟩ := List.get?_eq_some.mp hget2
        exact heq ▸ List.get_mem vs j hlt
      have hxv : x ≠ v := by
        intro he
        exact absurd (he ▸ hv_lt x hxvs) (lt_irrefl v)
      rw [if_neg hxv]
      have step := ih (n + 1) j x hvs
        (fun u hu => by have h1 := hv_lt u hu; have h2 := hlb v (List.mem_cons_self v vs); omega)
        hget2
      rw [step]
      omega

/-- The sorted distinct non-zero value list is strictly sorted. -/
theorem sortedVals_sorted (m : Arr Nat) : (sortedVals m).Pairwise (· < ·) := by
  unfold sortedVals
  exact List.Sorted.lt_of_le
    (List.sorted_insertionSort (· ≤ ·) _)
    ((List.perm_insertionSort _ _).nodup_iff.mpr (List.nodup_dedup _))

/-- Membership in the sorted value list is exactly being a non-zero entry. -/
theorem mem_sortedVals (m : Arr Nat) (x : Nat) :
    x ∈ sortedVals m ↔ (x ∈ m.flatten ∧ x ≠ 0) := by
  unfold sortedVals
  rw [(List.perm_insertionSort _ _).mem_iff, List.mem_dedup, List.mem_filter]
  simp

theorem length_sortedVals (m : Arr Nat) : (sortedVals m).length = numLabels m :=
  (List.perm_insertionSort _ _).length_eq

/-- The full renormalisation is a pointwise map of the scalar fold. -/
theorem renorm_eq_map (m : Arr Nat) :
    renorm m = m.map (List.map (renormVal (sortedVals m).enum)) :=
  foldl_substArr _ m

theorem rect_renorm {m : Arr Nat} {h w : Nat} (hm : rect m h w) : rect (renorm m) h w := by
  rw [renorm_eq_map]
  exact rect_map _ hm

/-- Scalar value of a renormalised entry: 0 stays 0, a non-zero label becomes
one plus its rank in the sorted distinct value list. -/
theorem renormVal_entry (m : Arr Nat) (x : Nat) (hx : x ∈ m.flatten) :
    renormVal (sortedVals m).enum x
      = if x = 0 then 0 else (sortedVals m).indexOf x + 1 := by
  rw [List.enum_eq_enumFrom]
  by_cases h0 : x = 0
  · rw [if_pos h0, h0]
    exact renormVal_zero _ (fun v hv => ((mem_sortedVals m v).mp hv).2) 0
  · rw [if_neg h0]
    have hmem : x ∈ sortedVals m := (mem_sortedVals m x).mpr ⟨hx, h0⟩
    have step := renormVal_hit (sortedVals m) 0 ((sortedVals m).indexOf x) x
      (sortedVals_sorted m)
      (fun v hv => Nat.pos_of_ne_zero ((mem_sortedVals m v).mp hv).2)
      (List.indexOf_get? hmem)
    rw [step]
    omega

/-- Distinct non-zero values of a renormalised mask are exactly 1..k, where k
is the number of distinct non-zero labels of the mask itself. -/
theorem renorm_mem_iff (m : Arr Nat) (w : Nat) :
    (w ∈ (renorm m).flatten ∧ w ≠ 0) ↔ (1 ≤ w ∧ w ≤ numLabels m) := by
  rw [renorm_eq_map, ← List.map_flatten]
  constructor
  · rintro ⟨hw, hw0⟩
    obtain ⟨x, hx, hfx⟩ := List.mem_map.mp hw
    rw [renormVal_entry m x hx] at hfx
    by_cases h0 : x = 0
    · rw [if_pos h0] at hfx
      omega
    · rw [if_neg h0] at hfx
      have hmem : x ∈ sortedVals m := (mem_sortedVals m x).mpr ⟨hx, h0⟩
      have hlt := List.indexOf_lt_length.mpr hmem
      rw [length_sortedVals] at hlt
      omega
  · rintro ⟨h1, h2⟩
    have hlen : w - 1 < (sortedVals m).length := by
      rw [length_sortedVals]
      omega
    have hxmem : (sortedVals m).get ⟨w - 1, hlen⟩ ∈ sortedVals m :=
      List.get_mem _ _ _
    have hxflat := ((mem_sortedVals m _).mp hxmem).1
    refine ⟨List.mem_map.mpr ⟨(sortedVals m).get ⟨w - 1, hlen⟩, hxflat, ?_⟩, by omega⟩
    rw [List.enum_eq_enumFrom]
    have step := renormVal_hit (sortedVals m) 0 (w - 1) _
      (sortedVals_sorted m)
      (fun v hv => Nat.pos_of_ne_zero ((mem_sortedVals m v).mp hv).2)
      (List.get?_eq_get hlen)
    rw [step]
    omega

/-- Pixel replication does not change which values occur. -/
theorem mem_flatten_repeat2 (r : Arr α) (x : α) :
    x ∈ (repeat2 r).flatten ↔ x ∈ r.flatten := by
  unfold repeat2 repeatCols repeatRows
  constructor
  · intro h
    obtain ⟨l, hl, hx⟩ := List.mem_flatten.mp h
    obtain ⟨row, hrow, rfl⟩ := List.mem_map.mp hl
    obtain ⟨row0, hrow0, hr⟩ := List.mem_flatMap.mp hrow
    obtain ⟨y, hy, hxy⟩ := List.mem_flatMap.mp hx
    have hxy2 : x = y := by simpa using hxy
    have hrow2 : row = row0 := by simpa using hr
    subst hxy2
    subst hrow2
    exact List.mem_flatten.mpr ⟨row, hrow0, hy⟩
  · intro h
    obtain ⟨row, hrow, hx⟩ := List.mem_flatten.mp h
    refine List.mem_flatten.mpr ⟨row.flatMap (fun y => [y, y]), ?_, ?_⟩
    · exact List.mem_map.mpr ⟨row, List.mem_flatMap.mpr ⟨row, hrow, by simp⟩, rfl⟩
    · exact List.mem_flatMap.mpr ⟨x, hx, by simp⟩

/-- Pixel replication does not change the sorted distinct value list. -/
theorem sortedVals_repeat2 (r : Arr Nat) : sortedVals (repeat2 r) = sortedVals r := by
  have hperm : (((repeat2 r).flatten.filter (fun v => v ≠ 0)).dedup).Perm
      ((r.flatten.filter (fun v => v ≠ 0)).dedup) := by
    apply List.perm_of_nodup_nodup_toFinset_eq (List.nodup_dedup _) (List.nodup_dedup _)
    ext a
    simp only [List.mem_toFinset, List.mem_dedup, List.mem_filter]
    rw [mem_flatten_repeat2]
  unfold sortedVals
  apply List.eq_of_perm_of_sorted (r := (· ≤ ·))
  · exact ((List.perm_insertionSort _ _).trans hperm).trans
      (List.perm_insertionSort _ _).symm
  · exact List.sorted_insertionSort _ _
  · exact List.sorted_insertionSort _ _

theorem numLabels_repeat2 (r : Arr Nat) : numLabels (repeat2 r) = numLabels r := by
  rw [← length_sortedVals, ← length_sortedVals, sortedVals_repeat2]

/-- C2: after a quartile split or a valid offset crop, the returned mask is the
replicated extracted region with each entry renumbered in sorted-value order
(0 stays 0, a non-zero label becomes one plus its rank among the distinct
non-zero values of the region), and consequently the set of distinct non-zero
values of the returned mask is exactly the contiguous range 1..k, with k the
number of distinct non-zero labels present in the extracted region of the
original mask. -/
theorem C2_label_contiguity :
    (∀ (f : FieldImg) (m : Mask) (idx : Int), 0 ≤ idx → idx < 4 →
      ∃ fld msk, t_quartile f m idx = Except.ok (fld, msk)
        ∧ msk = (repeat2 (quartSlice idx m.length (m.headD []).length m)).map
            (List.map (fun x => if x = 0 then 0 else
              (sortedVals (quartSlice idx m.length (m.headD []).length m)).indexOf x + 1))
        ∧ ∀ w, (w ∈ msk.flatten ∧ w ≠ 0) ↔
            (1 ≤ w ∧ w ≤ numLabels (quartSlice idx m.length (m.headD []).length m)))
    ∧ (∀ (f : FieldImg) (m : Mask) (off : Int), 0 ≤ off →
        off ≤ ((min (m.length / 2) ((m.headD []).length / 2) : Nat) : Int) →
      ∃ fld msk, t_offset f m off = Except.ok (fld, msk)
        ∧ msk = (repeat2 (offsetSlice off (m.length / 2) ((m.headD []).length / 2) m)).map
            (List.map (fun x => if x = 0 then 0 else
              (sortedVals (offsetSlice off (m.length / 2) ((m.headD []).length / 2) m)).indexOf x + 1))
        ∧ ∀ w, (w ∈ msk.flatten ∧ w ≠ 0) ↔
            (1 ≤ w ∧ w ≤ numLabels (offsetSlice off (m.length / 2) ((m.headD []).length / 2) m))) := by
  have main : ∀ region : Mask,
      renorm (repeat2 region) = (repeat2 region).map
          (List.map (fun x => if x = 0 then 0 else (sortedVals region).indexOf x + 1))
        ∧ ∀ w, (w ∈ (renorm (repeat2 region)).flatten ∧ w ≠ 0) ↔
            (1 ≤ w ∧ w ≤ numLabels region) := by
    intro region
    constructor
    · rw [renorm_eq_map]
      apply List.map_congr_left
      intro r hr
      apply List.map_congr_left
      intro x hx
      rw [renormVal_entry (repeat2 region) x (List.mem_flatten.mpr ⟨r, hr, hx⟩),
        sortedVals_repeat2]
    · intro w
      rw [renorm_mem_iff, numLabels_repeat2]
  constructor
  · intro f m idx h0 h4
    exact ⟨repeat2 (quartSlice idx m.length (m.headD []).length f),
      renorm (repeat2 (quartSlice idx m.length (m.headD []).length m)),
      t_quartile_ok f m idx ⟨h0, h4⟩,
      (main (quartSlice idx m.length (m.headD []).length m)).1,
      (main (quartSlice idx m.length (m.headD []).length m)).2⟩
  · intro f m off h0 hoff
    exact ⟨repeat2 (offsetSlice off (m.length / 2) ((m.headD []).length / 2) f),
      renorm (repeat2 (offsetSlice off (m.length / 2) ((m.headD []).length / 2) m)),
      t_offset_ok f m off hoff,
      (main (offsetSlice off (m.length / 2) ((m.headD []).length / 2) m)).1,
      (main (offsetSlice off (m.length / 2) ((m.headD []).length / 2) m)).2⟩

/-- Witness for C2 on concrete pairs: quartile index 0 on a 3×3 mask and
offset 1 on a 4×4 mask. -/
theorem C2_label_witness :
    (∃ fld msk, t_quartile exF3 exM3 0 = Except.ok (fld, msk)
        ∧ msk = (repeat2 (quartSlice 0 exM3.length (exM3.headD []).length exM3)).map
            (List.map (fun x => if x = 0 then 0 else
              (sortedVals (quartSlice 0 exM3.length (exM3.headD []).length exM3)).indexOf x + 1))
        ∧ ∀ w, (w ∈ msk.flatten ∧ w ≠ 0) ↔
            (1 ≤ w ∧ w ≤ numLabels (quartSlice 0 exM3.length (exM3.headD []).length exM3)))
    ∧ (∃ fld msk, t_offset exF4 exM4 1 = Except.ok (fld, msk)
        ∧ msk = (repeat2 (offsetSlice 1 (exM4.length / 2) ((exM4.headD []).length / 2) exM4)).map
            (List.map (fun x => if x = 0 then 0 else
              (sortedVals (offsetSlice 1 (exM4.length / 2) ((exM4.headD []).length / 2) exM4)).indexOf x + 1))
        ∧ ∀ w, (w ∈ msk.flatten ∧ w ≠ 0) ↔
            (1 ≤ w ∧ w ≤ numLabels (offsetSlice 1 (exM4.length / 2) ((exM4.headD []).length / 2) exM4))) :=
  ⟨C2_label_contiguity.1 exF3 exM3 0 (by decide) (by decide),
   C2_label_contiguity.2 exF4 exM4 1 (by decide) (by decide)⟩

/-! ## C1: shape preservation of the full transform -/

theorem rect_quartSlice {m : Arr α} {n : Nat} (i : Int) (hi : 0 ≤ i ∧ i < 4)
    (hm : rect m n n) (hev : 2 ∣ n) :
    rect (quartSlice i n n m) (n / 2) (n / 2) := by
  have key : ∀ x y : Nat, x ≤ 1 → y ≤ 1 →
      rect (slice2 ((n / 2 * x : Nat) : Int) ((n / 2 * (x + 1) : Nat) : Int)
        ((n / 2 * y : Nat) : Int) ((n / 2 * (y + 1) : Nat) : Int) m) (n / 2) (n / 2) := by
    intro x y hx hy
    have h2n : n / 2 * 2 = n := Nat.div_mul_cancel hev
    have hbx : n / 2 * (x + 1) ≤ n := by
      calc n / 2 * (x + 1) ≤ n / 2 * 2 := Nat.mul_le_mul_left _ (by omega)
        _ = n := h2n
    have hby : n / 2 * (y + 1) ≤ n := by
      calc n / 2 * (y + 1) ≤ n / 2 * 2 := Nat.mul_le_mul_left _ (by omega)
        _ = n := h2n
    have hsub : ∀ z : Nat, n / 2 * (z + 1) - n / 2 * z = n / 2 := by
      intro z
      rw [Nat.mul_succ]
      omega
    have hstep := rect_slice2_nat (n / 2 * x) (n / 2 * (x + 1)) (n / 2 * y) (n / 2 * (y + 1))
      hm (by rw [Nat.mul_succ]; omega) hbx (by rw [Nat.mul_succ]; omega) hby
    rw [hsub x, hsub y] at hstep
    exact hstep
  have h4 : i.toNat = 0 ∨ i.toNat = 1 ∨ i.toNat = 2 ∨ i.toNat = 3 := by omega
  unfold quartSlice
  rcases h4 with h | h | h | h <;> rw [h] <;>
    first
      | exact key 0 0 (by omega) (by omega)
      | exact key 0 1 (by omega) (by omega)
      | exact key 1 0 (by omega) (by omega)
      | exact key 1 1 (by omega) (by omega)

theorem rect_offsetSlice {m : Arr α} {n : Nat} (off : Int) (h0 : 0 ≤ off)
    (hub : off ≤ ((n / 2 : Nat) : Int)) (hm : rect m n n) :
    rect (offsetSlice off (n / 2) (n / 2) m) (n / 2) (n / 2) := by
  obtain ⟨o, rfl⟩ : ∃ o : Nat, off = (o : Int) := ⟨off.toNat, (Int.toNat_of_nonneg h0).symm⟩
  have ho : o ≤ n / 2 := by exact_mod_cast hub
  unfold offsetSlice
  rw [show ((o : Int) + ((n / 2 : Nat) : Int)) = (((o + n / 2 : Nat)) : Int) by push_cast; ring]
  have hstep := rect_slice2_nat o (o + n / 2) o (o + n / 2) hm
    (by omega) (by omega) (by omega) (by omega)
  rw [show o + n / 2 - o = n / 2 by omega] at hstep
  exact hstep

theorem t_flip_zero (f : FieldImg) (m : Mask) :
    t_flip f m 0 = Except.ok (rot90 (fliplr f), rot90 (fliplr m)) := rfl

theorem t_flip_one (f : FieldImg) (m : Mask) :
    t_flip f m 1 = Except.ok (flipud f, flipud m) := rfl

theorem t_flip_two (f : FieldImg) (m : Mask) :
    t_flip f m 2 = Except.ok (fliplr f, fliplr m) := rfl

/-- C1 counterexample: on the odd-sized 3×3 pair, the quartile-split (index 0,
a valid index) followed by the identity noise operator returns a 2×2 pair:
the 1×1 quadrant of a 3×3 array replicates back to 2×2, not 3×3, so the shape
is not preserved for every H×W input. -/
theorem C1_counterexample :
    ∃ fld msk, transform exF3 exM3 TransChoice.quartile.op 0 NoiseChoice.linear.op 0
        = Except.ok (fld, msk)
      ∧ TransChoice.quartile.valid 0 exM3.length
      ∧ NoiseChoice.linear.valid 0
      ∧ msk.length ≠ exM3.length :=
  ⟨_, _, rfl, ⟨by decide, by decide⟩, rfl, by decide⟩

/-- C1 amended: for every square pair of even side n (field n×n×3, mask n×n)
and every valid (translation operator, translation index, noise operator,
noise index) configuration, the pair returned by `transform` again has height
and width n.  (Squareness is needed because rotation and the diagonal flip
swap the two spatial dimensions; evenness because the crop operators rebuild
the size as twice the floored half.) -/
theorem C1_shape_preservation :
    ∀ (t : TransChoice) (nz : NoiseChoice) (ti ni : Int) (f : FieldImg) (m : Mask) (n : Nat),
      rect f n n → rect m n n → 2 ∣ n → t.valid ti n → nz.valid ni →
      ∃ fld msk, transform f m t.op ti nz.op ni = Except.ok (fld, msk)
        ∧ rect fld n n ∧ rect msk n n := by
  intro t nz ti ni f m n hf hm hev hti hni
  have h2n : 2 * (n / 2) = n := Nat.mul_div_cancel' hev
  have step1 : ∃ f1 m1, t.op.fn f m ti = Except.ok (f1, m1) ∧ rect f1 n n ∧ rect m1 n n := by
    cases t with
    | linear =>
      exact ⟨_, _, rfl, rect_map _ hf, rect_map _ hm⟩
    | quartile =>
      obtain ⟨h0, h3⟩ := hti
      have hq := t_quartile_ok f m ti ⟨h0, by omega⟩
      rw [hm.1, headD_length hm] at hq
      refine ⟨_, _, hq, ?_, ?_⟩
      · have hr := rect_repeat2 (rect_quartSlice ti ⟨h0, by omega⟩ hf hev)
        rw [h2n] at hr
        exact hr
      · have hr := rect_renorm (rect_repeat2 (rect_quartSlice ti ⟨h0, by omega⟩ hm hev))
        rw [h2n] at hr
        exact hr
    | offset =>
      obtain ⟨h0, hub⟩ := hti
      have hcond : ti ≤ ((min (m.length / 2) ((m.headD []).length / 2) : Nat) : Int) := by
        rw [hm.1, headD_length hm, min_self]
        exact hub
      have hq := t_offset_ok f m ti hcond
      rw [hm.1, headD_length hm] at hq
      refine ⟨_, _, hq, ?_, ?_⟩
      · have hr := rect_repeat2 (rect_offsetSlice ti h0 hub hf)
        rw [h2n] at hr
        exact hr
      · have hr := rect_renorm (rect_repeat2 (rect_offsetSlice ti h0 hub hm))
        rw [h2n] at hr
        exact hr
  obtain ⟨f1, m1, h1, hf1, hm1⟩ := step1
  have step2 : ∃ fld msk, nz.op.fn f1 m1 ni = Except.ok (fld, msk)
      ∧ rect fld n n ∧ rect msk n n := by
    cases nz with
    | linear => exact ⟨_, _, rfl, rect_map _ hf1, rect_map _ hm1⟩
    | rotation =>
      obtain ⟨h0, h3⟩ := hni
      exact ⟨(rotLoop ni.toNat (f1, m1)).1, (rotLoop ni.toNat (f1, m1)).2,
        t_rotation_ok f1 m1 ni ⟨h0, by omega⟩,
        (rect_rotLoop ni.toNat (f1, m1) hf1 hm1).1,
        (rect_rotLoop ni.toNat (f1, m1) hf1 hm1).2⟩
    | flip =>
      obtain ⟨h0, h2⟩ := hni
      have h3 : ni = 0 ∨ ni = 1 ∨ ni = 2 := by omega
      rcases h3 with rfl | rfl | rfl
      · exact ⟨_, _, t_flip_zero f1 m1,
          rect_rot90 (rect_fliplr hf1), rect_rot90 (rect_fliplr hm1)⟩
      · exact ⟨_, _, t_flip_one f1 m1, rect_flipud hf1, rect_flipud hm1⟩
      · exact ⟨_, _, t_flip_two f1 m1, rect_fliplr hf1, rect_fliplr hm1⟩
    | blur => exact ⟨_, _, rfl, rect_blurChannels ni hf1, hm1⟩
    | gamma =>
      obtain ⟨h5, h15⟩ := hni
      exact ⟨_, _, t_gamma_ok f1 m1 ni h5 h15, rect_map _ hf1, hm1⟩
  obtain ⟨fld, msk, h2, hfld, hmsk⟩ := step2
  refine ⟨fld, msk, ?_, hfld, hmsk⟩
  have hT : t.op.name ∈ allowedTranslations := by cases t <;> decide
  have hN : nz.op.name ∈ allowedNoises := by cases nz <;> decide
  rw [transform_ok_names f m t.op nz.op ti ni hT hN, h1]
  exact h2

/-- Witness for C1 on a concrete even square pair, with quartile index 1 and
rotation index 1. -/
theorem C1_shape_witness :
    ∃ fld msk, transform exF2 exM2 TransChoice.quartile.op 1 NoiseChoice.rotation.op 1
        = Except.ok (fld, msk) ∧ rect fld 2 2 ∧ rect msk 2 2 :=
  C1_shape_preservation TransChoice.quartile NoiseChoice.rotation 1 1 exF2 exM2 2
    (by decide) (by decide) (by decide) ⟨by decide, by decide⟩ ⟨by decide, by decide⟩
